import Mathlib

/-!
Verification of the influence-computation core of the `influenciae` package:
the inverse-Hessian-vector-product (IHVP) backends in
`deel/influenciae/influence/inverse_hessian_vector_product.py` and the
first-order influence calculator in
`deel/influenciae/influence/first_order_influence_calculator.py`.

Tensors are embedded over exact rationals (`ℚ`); the automatic-differentiation
oracle (per-sample gradients, jacobian-of-jacobian, forward-over-backward
Hessian-vector products) is an external collaborator of the code and appears as
a function parameter of each embedded operation.  Shapes that the claims talk
about are embedded either at the type level (`Matrix (Fin p) (Fin n) ℚ`) or as
lists of rows where the concatenation axis itself is in question.  Datasets are
lists of batches; a batch is a list of samples.
-/

/-! ## ExactIHVP: streamed Hessian accumulation (`_compute_inv_hessian`) -/

/-- A square parameter-by-parameter matrix, the shape of the Hessian
accumulator in `ExactIHVP._compute_inv_hessian`. -/
abbrev Mat (p : ℕ) : Type := Matrix (Fin p) (Fin p) ℚ

/-- Embeds the streaming loop of `ExactIHVP._compute_inv_hessian`
(default `parallel_iter = None` branch): starting from a zero `P×P`
accumulator and a zero element count, each batch adds the sum over the batch
of the per-sample jacobian-of-jacobian (`jj`, the external AD oracle; the cast
to the accumulator dtype is the identity over `ℚ`) and adds the batch size to
the element count. -/
def hessLoop {S : Type} {p : ℕ} (jj : S → Mat p) (ds : List (List S)) : Mat p × ℕ :=
  ds.foldl (fun acc batch => (acc.1 + (batch.map jj).sum, acc.2 + batch.length)) (0, 0)

/-- Embeds `ExactIHVP._compute_inv_hessian`: run the streaming loop, divide the
accumulator by the total sample count (`hess / nb_elt`, scalar division
embedded as scaling by the inverse) and apply the Moore-Penrose pseudo-inverse
(`tf.linalg.pinv`, an external numeric routine, taken as a parameter) once. -/
def computeInvHessian {S : Type} {p : ℕ} (pinv : Mat p → Mat p) (jj : S → Mat p)
    (ds : List (List S)) : Mat p :=
  pinv (((hessLoop jj ds).2 : ℚ)⁻¹ • (hessLoop jj ds).1)

/-- The mean Hessian over the whole streamed dataset, written in closed form:
the sum of the per-sample jacobian-of-jacobian over all samples of all
batches, divided by the total number of samples. -/
def meanHessian {S : Type} {p : ℕ} (jj : S → Mat p) (ds : List (List S)) : Mat p :=
  ((ds.flatten.length : ℚ))⁻¹ • ((ds.flatten).map jj).sum

/-- The exception raised by the `ExactIHVP` constructor when neither argument
is supplied.  The code raises `argparse.ArgumentError`; the spec calls for a
`ConfigurationError`.  Both appear here so the embedded constructor can record
which one the code path actually produces. -/
inductive InitErr : Type
  | argumentErr : InitErr
  | configurationErr : InitErr
deriving DecidableEq

/-- Embeds `ExactIHVP.__init__`: the code first tests
`train_dataset is not None` (computing the inverse Hessian and leaving the
Hessian cache empty, whatever `train_hessian` holds), then tests
`train_hessian is not None` (caching the Hessian and pseudo-inverting it), and
only when both are `None` raises `ArgumentError`.  The returned state is the
pair (`inv_hessian`, cached `hessian`). -/
def exactIHVPInitModel {S : Type} {p : ℕ} (pinv : Mat p → Mat p) (jj : S → Mat p) :
    Option (List (List S)) → Option (Mat p) → Except InitErr (Mat p × Option (Mat p))
  | some ds, _ => .ok (computeInvHessian pinv jj ds, none)
  | none, some h => .ok (pinv h, some h)
  | none, none => .error .argumentErr

/-! ## ConjugateGradientDescentIHVP: the matrix-free operator (`__call__`) -/

/-- Embeds `ConjugateGradientDescentIHVP.__sub_call`: the Hessian-vector
product of the loss over the feature-map batch it receives (for the candidate
direction fixed inside `hvpF`), scaled by the weight
`shape(batch)[0] / n_hessian`.  `hvpF` is the external forward-over-backward
oracle giving one sample's exact Hessian-vector product; the loss over a batch
accumulates per-sample losses, so the batch HVP is the sum of per-sample
HVPs (the only call site passes singleton batches, where this is immediate). -/
def subCall {S V : Type} [AddCommMonoid V] [Module ℚ V] (hvpF : S → V) (nH : ℚ)
    (fmBatch : List S) : V :=
  ((fmBatch.length : ℚ) / nH) • (fmBatch.map hvpF).sum

/-- The per-batch accumulation step of `ConjugateGradientDescentIHVP.__call__`:
`tf.map_fn` applies `__sub_call` to every sample of the batch expanded to a
singleton slice (`tf.expand_dims(f, axis=0)`), and `tf.reduce_sum` adds the
per-sample results into the running accumulator. -/
def cgdStep {S V : Type} [AddCommMonoid V] [Module ℚ V] (hvpF : S → V) (nH : ℚ)
    (acc : V) (batch : List S) : V :=
  acc + (batch.map (fun s => subCall hvpF nH [s])).sum

/-- The value computed by `ConjugateGradientDescentIHVP.__call__`: fold the
per-batch step over the whole feature-map dataset starting from zero. -/
def cgdOperatorCall {S V : Type} [AddCommMonoid V] [Module ℚ V] (hvpF : S → V) (nH : ℚ)
    (ds : List (List S)) : V :=
  ds.foldl (cgdStep hvpF nH) 0

/-- The accumulation described by the spec sentence for the operator: for each
batch, sum the per-sample Hessian-vector products across the batch and scale
the batch total by (batch size / total training sample count), i.e. apply
`__sub_call`'s weight at whole-batch granularity. -/
def claimedOperatorCall {S V : Type} [AddCommMonoid V] [Module ℚ V] (hvpF : S → V) (nH : ℚ)
    (ds : List (List S)) : V :=
  ds.foldl (fun acc batch => acc + subCall hvpF nH batch) 0

/-- An explicit iterator semantics for the `tf.while_loop` in
`ConjugateGradientDescentIHVP.__call__`: run the step function exactly `n`
times, pulling one batch from the iterator (`next(dataset_iterator)`) per
iteration; pulling from an exhausted iterator fails (`none`).  Returns the
accumulator together with the unconsumed remainder of the iterator. -/
def runBatches {V B : Type} (f : V → B → V) : ℕ → V → List B → Option (V × List B)
  | 0, acc, it => some (acc, it)
  | Nat.succ _, _, [] => none
  | Nat.succ n, acc, b :: rest => runBatches f n (f acc b) rest

/-- Embeds `ConjugateGradientDescentIHVP.__call__` with its iterator made
explicit: a fresh iterator over the feature-map dataset is created
(`iter(self.train_set)`, i.e. the whole batch list), and the `tf.while_loop`
runs its body exactly `self.cardinality` times (the number of batches). -/
def cgdOperatorCallIter {S V : Type} [AddCommMonoid V] [Module ℚ V] (hvpF : S → V) (nH : ℚ)
    (ds : List (List S)) : Option (V × List (List S)) :=
  runBatches (cgdStep hvpF nH) ds.length 0 ds

/-! ## ExactIHVP.compute_ihvp with `use_gradient=False` (list-of-rows embedding)

The concatenation axis is the point at issue in this code path, so matrices
are embedded as lists of rows: `tf.concat(axis=0)` is `List.flatten` on the
row lists. -/

/-- Dot product of two rational row vectors. -/
def dotQ (u v : List ℚ) : ℚ := (List.zipWith (fun a b => a * b) u v).sum

/-- Embeds `tf.matmul(inv_hessian, batch, transpose_b=True)` on a `P×P`
matrix and a `b×P` batch of vectors, producing the `P×b` result whose entry
`(i, j)` is the dot product of row `i` of `hinv` with vector `j` of the
batch. -/
def matMulTB (hinv : List (List ℚ)) (vb : List (List ℚ)) : List (List ℚ) :=
  hinv.map (fun hrow => vb.map (fun vrow => dotQ hrow vrow))

/-- Embeds the `use_gradient=False` branch of `ExactIHVP.compute_ihvp`: for
each batch of P-length vectors, multiply by the inverse Hessian
(`transpose_b=True`), then `tf.concat(..., axis=0)` the per-batch `P×b`
results — concatenation along axis 0, i.e. stacking their rows. -/
def exactIhvpNoGrad (hinv : List (List ℚ)) (batches : List (List (List ℚ))) : List (List ℚ) :=
  (batches.map (fun vb => matMulTB hinv vb)).flatten

/-- Column count of a list-of-rows matrix (length of its first row). -/
def numColsL (m : List (List ℚ)) : ℕ := (m.headD []).length

/-- Total number of input points across the batches of a group. -/
def totalPoints (batches : List (List (List ℚ))) : ℕ := (batches.map List.length).sum

/-! ## FirstOrderInfluenceCalculator: influence vectors

The IHVP backend is abstracted by the `P×n` matrix it returns for the input
dataset (contract: one column per input point); `tf.norm(v, axis=0)` is
abstracted by a column-norm functional `normF` applied to each column. -/

/-- Embeds the column-wise division `v / tf.norm(v, axis=0, keepdims=True)`
performed by `FirstOrderInfluenceCalculator.__normalize_if_needed` on a
`P×n` matrix. -/
def normalizeCols {p n : ℕ} (normF : (Fin p → ℚ) → ℚ) (m : Matrix (Fin p) (Fin n) ℚ) :
    Matrix (Fin p) (Fin n) ℚ :=
  Matrix.of fun i j => m i j / normF (fun i2 => m i2 j)

/-- Embeds `__normalize_if_needed` applied to a single `P`-vector (the shape
it receives in `compute_influence_group` after the `reduce_sum`). -/
def normalizeVec {p : ℕ} (normF : (Fin p → ℚ) → ℚ) (v : Fin p → ℚ) : Fin p → ℚ :=
  fun i => v i / normF v

/-- Embeds `__normalize_if_needed`: normalize when the calculator was built
with `normalize=True`, otherwise return the input unchanged. -/
def normalizeIfNeeded {p n : ℕ} (nrm : Bool) (normF : (Fin p → ℚ) → ℚ)
    (m : Matrix (Fin p) (Fin n) ℚ) : Matrix (Fin p) (Fin n) ℚ :=
  if nrm then normalizeCols normF m else m

/-- Embeds `FirstOrderInfluenceCalculator.compute_influence` downstream of the
IHVP backend: normalize the `P×n` IHVP matrix if needed, then
`tf.transpose` it before returning. -/
def computeInfluence {p n : ℕ} (nrm : Bool) (normF : (Fin p → ℚ) → ℚ)
    (m : Matrix (Fin p) (Fin n) ℚ) : Matrix (Fin n) (Fin p) ℚ :=
  (normalizeIfNeeded nrm normF m).transpose

/-- Embeds `FirstOrderInfluenceCalculator.compute_influence_group` downstream
of the IHVP backend: `tf.reduce_sum(ihvp, axis=1)`, normalize the resulting
`P`-vector if needed, and `tf.reshape` it to a `1×P` row. -/
def computeInfluenceGroup {p n : ℕ} (nrm : Bool) (normF : (Fin p → ℚ) → ℚ)
    (m : Matrix (Fin p) (Fin n) ℚ) : Matrix (Fin 1) (Fin p) ℚ :=
  Matrix.of fun _ j =>
    (if nrm then normalizeVec normF (fun i => ∑ k, m i k) else fun i => ∑ k, m i k) j

/-- The `use_gradient=True` IHVP of `ExactIHVP`: `inv_hessian · gradsᵀ`, the
`P×n` matrix whose column `j` is the inverse Hessian applied to the gradient
of input point `j` (`grads` holds one `P`-gradient per row). -/
def exactIhvpGrads {p n : ℕ} (hinv : Mat p) (grads : Matrix (Fin n) (Fin p) ℚ) :
    Matrix (Fin p) (Fin n) ℚ :=
  hinv * grads.transpose

/-! ## Column normalization with float division semantics (for the zero-column case)

The `normalize=True` branch of `__normalize_if_needed` divides by `tf.norm`
unconditionally.  `tf.norm` of the zero column is exactly `0`, and IEEE float
division `0/0` is NaN, so an embedding over a field must make the zero
denominator observable: division lifts to `Option ℚ` with `none` standing for
NaN.  The norm itself involves a square root, so it enters as a value `n`
characterized by `n * n = sumSq v`. -/

/-- Sum of squared entries of a column: the square of its L2 norm. -/
def sumSq (v : List ℚ) : ℚ := (v.map (fun x => x * x)).sum

/-- Division with the float semantics the code runs under: a zero denominator
produces NaN (`none`), otherwise exact division. -/
def divNaN (x n : ℚ) : Option ℚ := if n = 0 then none else some (x / n)

/-- Embeds one column of `__normalize_if_needed` under `normalize=True`:
`v / tf.norm(v, axis=0)` divides every entry of the column by the column's
norm `n`, unconditionally — zero-norm columns get NaN entries. -/
def normalizeColumn (v : List ℚ) (n : ℚ) : List (Option ℚ) :=
  v.map (fun x => divNaN x n)

/-! ## Bounded top-k accumulator (`BatchedSortedDict`), modelled from the spec

The class `deel.influenciae.common.sorted_dict.BatchedSortedDict` used by
`FirstOrderInfluenceCalculator.top_k` is not part of the two source files, so
its behaviour is modelled from the spec (§3, §4.4): per query row, a
capacity-`k` list of (score, payload) entries sorted descending by score,
ties broken by encounter order (newly added entries of equal score are
appended after existing ones), pruned back to `k` after every batch. -/

/-- Modelled from the spec: inserting one (score, payload) entry into a
row of the `BatchedSortedDict` — the entry is placed before the first
strictly-lower-scoring entry, hence after all existing entries of equal
score (earlier-seen entries win ties). -/
def insertEntry {α : Type} (st : List (ℚ × α)) (p : ℚ × α) : List (ℚ × α) :=
  List.orderedInsert (fun p2 q2 => p2.1 > q2.1) p st

/-- Modelled from the spec: `BatchedSortedDict.add_all` restricted to one
query row — merge the batch's (score, payload) pairs into the sorted row,
then prune the row back to the `k` highest-scoring entries. -/
def addAll {α : Type} (k : ℕ) (st : List (ℚ × α)) (batch : List (ℚ × α)) : List (ℚ × α) :=
  (batch.foldl insertEntry st).take k

/-- Modelled from the spec: the state of one query row of the accumulator
after a streamed sequence of batches has been fed to it, starting empty. -/
def feedBatches {α : Type} (k : ℕ) (batches : List (List (ℚ × α))) : List (ℚ × α) :=
  batches.foldl (addAll k) []

/-- The score component of a row state (the sorted score list that
`BatchedSortedDict.get` reports for the row). -/
def entryScores {α : Type} (st : List (ℚ × α)) : List ℚ := st.map Prod.fst

/-- Sorting a score list in descending order (a specification device for the
theorems, not an embedding of code). -/
def sortDesc (l : List ℚ) : List ℚ := l.insertionSort (· ≥ ·)

/-- The `k` largest scores of a list, in descending order (specification
device). -/
def topScores (k : ℕ) (l : List ℚ) : List ℚ := (sortDesc l).take k

/-- A row state sorted descending by score — the accumulator invariant. -/
abbrev sortedByScore {α : Type} (st : List (ℚ × α)) : Prop :=
  st.Sorted (fun p q => p.1 ≥ q.1)

/-- Embeds one query row of `FirstOrderInfluenceCalculator.top_k`: the loop
over `dataset_train` feeds, for query row `r`, the pairs of that row of the
score matrix (`scoreF r b`, abstracting `grads_to_evaluate · ihvp(b)`) with
the batch's *inputs* `b.1` — `batch[0]` in the code, labels dropped — into
the accumulator row. -/
def topKRow {ι κ : Type} (k : ℕ) (scoreF : ℕ → List ι × List κ → List ℚ) (r : ℕ)
    (bs : List (List ι × List κ)) : List (ℚ × ι) :=
  feedBatches k (bs.map (fun b => (scoreF r b).zip b.1))

/-! ## Helper lemmas for the streamed accumulations -/

theorem hessLoop_go {S : Type} {p : ℕ} (jj : S → Mat p) :
    ∀ (ds : List (List S)) (h0 : Mat p) (n0 : ℕ),
      ds.foldl (fun acc batch => (acc.1 + (batch.map jj).sum, acc.2 + batch.length)) (h0, n0)
        = (h0 + ((ds.flatten).map jj).sum, n0 + (ds.flatten).length)
  | [], h0, n0 => by simp
  | b :: ds, h0, n0 => by
    simp only [List.foldl_cons, hessLoop_go jj ds, List.flatten_cons, List.map_append,
      List.sum_append, List.length_append, add_assoc]

theorem hessLoop_eq {S : Type} {p : ℕ} (jj : S → Mat p) (ds : List (List S)) :
    hessLoop jj ds = (((ds.flatten).map jj).sum, (ds.flatten).length) := by
  simpa [hessLoop] using hessLoop_go jj ds 0 0

theorem subCall_singleton {S V : Type} [AddCommMonoid V] [Module ℚ V] (hvpF : S → V) (nH : ℚ)
    (s : S) : subCall hvpF nH [s] = nH⁻¹ • hvpF s := by
  simp [subCall, one_div]

theorem cgdStep_sum {S V : Type} [AddCommMonoid V] [Module ℚ V] (hvpF : S → V) (nH : ℚ)
    (batch : List S) :
    (batch.map (fun s => subCall hvpF nH [s])).sum = nH⁻¹ • (batch.map hvpF).sum := by
  rw [List.smul_sum, List.map_map]
  simp [subCall_singleton, Function.comp_def]

theorem cgdOperatorCall_go {S V : Type} [AddCommMonoid V] [Module ℚ V] (hvpF : S → V) (nH : ℚ) :
    ∀ (ds : List (List S)) (a : V),
      ds.foldl (cgdStep hvpF nH) a = a + nH⁻¹ • ((ds.flatten).map hvpF).sum
  | [], a => by simp
  | b :: ds, a => by
    simp [List.foldl_cons, cgdOperatorCall_go hvpF nH ds, cgdStep, cgdStep_sum,
      smul_add, add_assoc]

theorem runBatches_foldl {V B : Type} (f : V → B → V) :
    ∀ (l : List B) (a : V), runBatches f l.length a l = some (l.foldl f a, [])
  | [], _ => rfl
  | b :: l, a => by
    simpa [runBatches, List.length_cons] using runBatches_foldl f l (f a b)

/-! ## Claim theorems: C1, C2, C5 -/

/-- C1: `ExactIHVP`, constructed from a batched reference dataset, streams the
dataset once, accumulating per-batch sums of per-sample jacobian-of-jacobian
matrices and the running sample count, divides the accumulator by the total
sample count, and stores as `inv_hessian` the Moore-Penrose pseudo-inverse of
that mean Hessian, applied exactly once. -/
theorem exact_ihvp_mean_hessian_pinv {S : Type} {p : ℕ} (pinv : Mat p → Mat p)
    (jj : S → Mat p) (ds : List (List S)) :
    computeInvHessian pinv jj ds = pinv (meanHessian jj ds) := by
  simp [computeInvHessian, meanHessian, hessLoop_eq]

/-- C2 counterexample: on a dataset of a single batch of two samples whose
per-sample Hessian-vector product is constantly `1` (parameter dimension 1)
with total sample count 2, `__call__` returns `1` (each per-sample product is
weighted `1/2`, because `__sub_call` receives singleton slices), while the
claimed accumulation — batch sums scaled by (batch size / total count) —
returns `2`. -/
theorem cgd_call_batch_weight_counterexample :
    cgdOperatorCall (fun _ : ℕ => (1 : ℚ)) 2 [[0, 1]] = 1 ∧
      claimedOperatorCall (fun _ : ℕ => (1 : ℚ)) 2 [[0, 1]] = 2 ∧
      cgdOperatorCall (fun _ : ℕ => (1 : ℚ)) 2 [[0, 1]] ≠
        claimedOperatorCall (fun _ : ℕ => (1 : ℚ)) 2 [[0, 1]] := by
  norm_num [cgdOperatorCall, claimedOperatorCall, cgdStep, subCall, smul_eq_mul]

/-- C2 (amended): one invocation of `__call__` returns the sum over all
samples of all batches of the per-sample exact Hessian-vector products, each
scaled by `1 / n_hessian` (the weight `batch_size / total count` is evaluated
on the singleton slice handed to `__sub_call`, so it is `1 / total count`);
with `nH` the total training sample count this is the action of the
full-dataset mean Hessian on the query vector. -/
theorem cgd_call_mean_hvp {S V : Type} [AddCommMonoid V] [Module ℚ V] (hvpF : S → V)
    (nH : ℚ) (ds : List (List S)) :
    cgdOperatorCall hvpF nH ds = nH⁻¹ • ((ds.flatten).map hvpF).sum := by
  simpa [cgdOperatorCall] using cgdOperatorCall_go hvpF nH ds 0

/-- C5: one invocation of `__call__` starts from a fresh iterator over the
feature-map dataset and consumes exactly `cardinality` batches — the bounded
`tf.while_loop` succeeds, leaves an empty remainder, and its value is the pure
fold of the per-batch step over the batch list, so repeated invocations with
the same query vector (the same `hvpF`) return equal results. -/
theorem cgd_call_consumes_cardinality {S V : Type} [AddCommMonoid V] [Module ℚ V]
    (hvpF : S → V) (nH : ℚ) (ds : List (List S)) :
    cgdOperatorCallIter hvpF nH ds = some (cgdOperatorCall hvpF nH ds, []) :=
  runBatches_foldl (cgdStep hvpF nH) ds 0

/-! ## Claim theorems: C3, C4 -/

/-- C3: evaluation of the `use_gradient=False` branch of
`ExactIHVP.compute_ihvp` at the failing input `inv_hessian = [[1]]` (`P = 1`)
and a group of two batches, each one `P`-vector (`[2]` and `[3]`): the code
concatenates the per-batch `P×b` products along axis 0 — the parameter axis —
returning the `2×1` matrix `[[2],[3]]` with a single column, although the
group holds two input points (the documented contract, one column per input
point, demands the `1×2` matrix `[[2, 3]]`). -/
theorem exact_ihvp_no_grad_concat_axis_bug :
    exactIhvpNoGrad [[1]] [[[2]], [[3]]] = [[2], [3]] ∧
      numColsL (exactIhvpNoGrad [[1]] [[[2]], [[3]]]) = 1 ∧
      totalPoints [[[2]], [[3]]] = 2 := by
  refine ⟨?_, ?_, rfl⟩ <;> norm_num [exactIhvpNoGrad, matMulTB, dotQ, numColsL]

/-- C4: evaluation of the embedded `ExactIHVP.__init__` at the failing
inputs: when both a reference dataset and a precomputed Hessian are supplied,
construction succeeds (the dataset branch wins and the supplied Hessian is
ignored) instead of failing; and when neither is supplied the constructor
raises `ArgumentError` (from `argparse`), not the `ConfigurationError` the
claim and the constructor's docstring prescribe. -/
theorem exact_ihvp_init_both_accepted :
    (∃ st, exactIHVPInitModel (fun h => h) (fun _ : Unit => (0 : Mat 1)) (some [[()]]) (some 0)
        = Except.ok st) ∧
      exactIHVPInitModel (fun h => h) (fun _ : Unit => (0 : Mat 1)) none none
        = Except.error InitErr.argumentErr :=
  ⟨⟨_, rfl⟩, rfl⟩

/-! ## Claim theorems: C8, C9 -/

/-- C8: on a dataset holding exactly one point (the backend returns a `P×1`
IHVP matrix), `compute_influence_group` and `compute_influence` return the
same `1×P` matrix, for either value of the `normalize` flag: the `reduce_sum`
over one column is that column, and both paths then apply the same
normalization and produce a row. -/
theorem singleton_group_influence_eq {p : ℕ} (nrm : Bool) (normF : (Fin p → ℚ) → ℚ)
    (m : Matrix (Fin p) (Fin 1) ℚ) :
    computeInfluenceGroup nrm normF m = computeInfluence nrm normF m := by
  have hfun : (fun i2 => ∑ k, m i2 k) = fun i2 => m i2 0 := by
    funext i2
    simp [Fin.sum_univ_one]
  ext i j
  have hi : i = 0 := Subsingleton.elim i 0
  cases nrm with
  | false =>
    simp [computeInfluenceGroup, computeInfluence, normalizeIfNeeded, hfun, hi,
      Matrix.transpose_apply, Fin.sum_univ_one]
  | true =>
    simp [computeInfluenceGroup, computeInfluence, normalizeIfNeeded, normalizeCols,
      normalizeVec, hfun, hi, Matrix.transpose_apply, Fin.sum_univ_one]

/-- C9 counterexample: with the identity matrix as inverse Hessian and the two
point gradients `(1, 2)` and `(3, 4)` (so `P = n = 2`, `normalize=False`),
the IHVP matrix with one column per input point is `[[1, 3], [2, 4]]`, but
`compute_influence` returns its transpose `[[1, 2], [3, 4]]` — the claim that
the returned matrix is the IHVP arranged one column per point fails. -/
theorem compute_influence_not_column_per_point :
    computeInfluence false (fun _ => 1)
        (exactIhvpGrads (Matrix.of ![![(1 : ℚ), 0], ![0, 1]]) (Matrix.of ![![(1 : ℚ), 2], ![3, 4]]))
      ≠ exactIhvpGrads (Matrix.of ![![(1 : ℚ), 0], ![0, 1]]) (Matrix.of ![![(1 : ℚ), 2], ![3, 4]]) := by
  intro h
  have h2 := congrFun (congrFun h 0) 1
  have hL : computeInfluence false (fun _ => 1)
      (exactIhvpGrads (Matrix.of ![![(1 : ℚ), 0], ![0, 1]]) (Matrix.of ![![(1 : ℚ), 2], ![3, 4]]))
        0 1 = 2 := by
    norm_num [computeInfluence, normalizeIfNeeded, exactIhvpGrads, Matrix.mul_apply,
      Matrix.transpose, Matrix.of_apply, Matrix.vecHead, Matrix.vecTail, Fin.sum_univ_two,
      Matrix.cons_val_zero, Matrix.cons_val_one, Matrix.head_cons]
  have hR : exactIhvpGrads (Matrix.of ![![(1 : ℚ), 0], ![0, 1]])
      (Matrix.of ![![(1 : ℚ), 2], ![3, 4]]) 0 1 = 3 := by
    norm_num [exactIhvpGrads, Matrix.mul_apply, Matrix.transpose, Matrix.of_apply,
      Matrix.vecHead, Matrix.vecTail, Fin.sum_univ_two, Matrix.cons_val_zero,
      Matrix.cons_val_one, Matrix.head_cons]
  rw [hL, hR] at h2
  norm_num at h2

/-- C9 (amended): `compute_influence` (default `normalize=False`) returns the
transpose of the IHVP matrix: one row per input point, where row `j` is the
inverse Hessian applied to point `j`'s gradient (the IHVP itself has one
column per point; the code transposes it before returning). -/
theorem compute_influence_row_per_point {p n : ℕ} (normF : (Fin p → ℚ) → ℚ)
    (hinv : Mat p) (grads : Matrix (Fin n) (Fin p) ℚ) (j : Fin n) (i : Fin p) :
    computeInfluence false normF (exactIhvpGrads hinv grads) j i
      = hinv.mulVec (grads j) i := by
  simp [computeInfluence, normalizeIfNeeded, exactIhvpGrads, Matrix.transpose_apply,
    Matrix.mul_apply, Matrix.mulVec, Matrix.dotProduct]

/-! ## Helper lemmas for column normalization -/

theorem sumSq_cons (x : ℚ) (v : List ℚ) : sumSq (x :: v) = x * x + sumSq v := by
  simp [sumSq]

theorem sumSq_nonneg (v : List ℚ) : 0 ≤ sumSq v := by
  induction v with
  | nil => simp [sumSq]
  | cons x v ih =>
    rw [sumSq_cons]
    exact add_nonneg (mul_self_nonneg x) ih

theorem sumSq_eq_zero {v : List ℚ} (h : sumSq v = 0) : ∀ x ∈ v, x = 0 := by
  induction v with
  | nil => simp
  | cons y v ih =>
    rw [sumSq_cons] at h
    have h1 : y * y ≤ 0 := by linarith [sumSq_nonneg v]
    have h2 : y * y = 0 := le_antisymm h1 (mul_self_nonneg y)
    have h3 : sumSq v = 0 := by linarith
    intro x hx
    rcases List.mem_cons.mp hx with hxy | hxv
    · rw [hxy]
      exact mul_self_eq_zero.mp h2
    · exact ih h3 x hxv

theorem sumSq_map_div (v : List ℚ) (n : ℚ) :
    sumSq (v.map (fun x => x / n)) = sumSq v / (n * n) := by
  induction v with
  | nil => simp [sumSq]
  | cons x v ih =>
    simp only [List.map_cons, sumSq_cons, ih, div_mul_div_comm]
    rw [add_div]

/-! ## Claim theorems: C7 -/

/-- C7 counterexample: the zero column `[0, 0]` has L2 norm exactly `0`
(`0 * 0 = sumSq [0, 0]`), and the `normalize=True` branch divides it anyway:
the returned column consists of NaN entries (`none`), not the untouched zero
column the claim describes. -/
theorem normalize_zero_column_counterexample :
    (0 : ℚ) * 0 = sumSq [0, 0] ∧
      normalizeColumn [0, 0] 0 = [none, none] ∧
      normalizeColumn [0, 0] 0 ≠ [some 0, some 0] := by
  refine ⟨by norm_num [sumSq], by simp [normalizeColumn, divNaN], by simp [normalizeColumn, divNaN]⟩

/-- C7 (amended): with `normalize=True`, every influence-vector column that is
not identically zero is divided by its L2 norm and ends with unit L2 norm
(its squared entries sum to `1`); columns that are exactly zero are NOT left
as zero — the division is unconditional and a zero norm turns every entry
into NaN. -/
theorem normalize_nonzero_unit_norm (v : List ℚ) (n : ℚ) (hn : n * n = sumSq v)
    (hx : ∃ x ∈ v, x ≠ 0) :
    normalizeColumn v n = (v.map (fun x => x / n)).map some ∧
      sumSq (v.map (fun x => x / n)) = 1 := by
  have hn0 : n ≠ 0 := by
    intro h0
    rcases hx with ⟨x, hxv, hx0⟩
    exact hx0 (sumSq_eq_zero (by rw [← hn, h0, mul_zero]) x hxv)
  constructor
  · simp [normalizeColumn, divNaN, hn0, List.map_map, Function.comp_def]
  · rw [sumSq_map_div, ← hn]
    exact div_self (mul_ne_zero hn0 hn0)

/-- C7 witness: the column `(3, 4)` with norm `5` is normalized to
`(3/5, 4/5)`, whose squared entries sum to `1`. -/
theorem normalize_nonzero_unit_norm_witness :
    (5 : ℚ) * 5 = sumSq [3, 4] ∧ (∃ x ∈ ([3, 4] : List ℚ), x ≠ 0) ∧
      (normalizeColumn [3, 4] 5 = (([3, 4] : List ℚ).map (fun x => x / 5)).map some ∧
        sumSq (([3, 4] : List ℚ).map (fun x => x / 5)) = 1) :=
  ⟨by norm_num [sumSq], ⟨3, by simp, by norm_num⟩,
    normalize_nonzero_unit_norm [3, 4] 5 (by norm_num [sumSq]) ⟨3, by simp, by norm_num⟩⟩

/-! ## Helper lemmas for the top-k accumulator -/

theorem take_cons_take {b : Type} (a : b) (s : List b) (m : ℕ) :
    (a :: s.take m).take m = (a :: s).take m := by
  cases m with
  | zero => simp
  | succ t =>
    simp only [List.take_succ_cons]
    rw [List.take_take, min_eq_left (Nat.le_succ t)]

theorem take_orderedInsert {b : Type} (r : b → b → Prop) [DecidableRel r] (a : b) :
    ∀ (s : List b) (k : ℕ),
      (List.orderedInsert r a s).take k = (List.orderedInsert r a (s.take k)).take k
  | [], k => by simp
  | c :: s, k => by
    by_cases h : r a c
    · cases k with
      | zero => simp
      | succ m =>
        simp only [List.take_succ_cons, List.orderedInsert, if_pos h]
        rw [take_cons_take]
    · cases k with
      | zero => simp
      | succ m =>
        simp only [List.take_succ_cons, List.orderedInsert, if_neg h]
        rw [take_orderedInsert r a s m]

theorem sortDesc_perm (l : List ℚ) : (sortDesc l).Perm l := List.perm_insertionSort _ l

theorem sortDesc_sorted (l : List ℚ) : (sortDesc l).Sorted (· ≥ ·) :=
  List.sorted_insertionSort _ l

theorem sortDesc_congr {l l2 : List ℚ} (h : l.Perm l2) : sortDesc l = sortDesc l2 :=
  List.eq_of_perm_of_sorted ((sortDesc_perm l).trans (h.trans (sortDesc_perm l2).symm))
    (sortDesc_sorted l) (sortDesc_sorted l2)

theorem sortDesc_of_sorted {l : List ℚ} (h : l.Sorted (· ≥ ·)) : sortDesc l = l :=
  List.Sorted.insertionSort_eq h

theorem topScores_sorted (k : ℕ) (l : List ℚ) : (topScores k l).Sorted (· ≥ ·) :=
  (sortDesc_sorted l).take

theorem topScores_idem (k : ℕ) (l : List ℚ) : topScores k (topScores k l) = topScores k l := by
  show (sortDesc (topScores k l)).take k = topScores k l
  rw [sortDesc_of_sorted (topScores_sorted k l)]
  show ((sortDesc l).take k).take k = (sortDesc l).take k
  rw [List.take_take, min_self]

theorem topScores_append_singleton (k : ℕ) (x : List ℚ) (c : ℚ) :
    topScores k (topScores k x ++ [c]) = topScores k (x ++ [c]) := by
  have h1 : sortDesc (x ++ [c]) = List.orderedInsert (· ≥ ·) c (sortDesc x) := by
    rw [sortDesc_congr (List.perm_append_singleton c x)]
    rfl
  have h2 : sortDesc (topScores k x ++ [c]) = List.orderedInsert (· ≥ ·) c (topScores k x) := by
    rw [sortDesc_congr (List.perm_append_singleton c (topScores k x))]
    show List.orderedInsert (· ≥ ·) c (sortDesc (topScores k x)) = _
    rw [sortDesc_of_sorted (topScores_sorted k x)]
  show (sortDesc (topScores k x ++ [c])).take k = (sortDesc (x ++ [c])).take k
  rw [h1, h2]
  exact (take_orderedInsert _ c (sortDesc x) k).symm

theorem topScores_append (k : ℕ) :
    ∀ (y x : List ℚ), topScores k (topScores k x ++ y) = topScores k (x ++ y)
  | [], x => by simpa using topScores_idem k x
  | c :: y, x => by
    calc topScores k (topScores k x ++ (c :: y))
        = topScores k ((topScores k x ++ [c]) ++ y) := by simp
      _ = topScores k (topScores k (topScores k x ++ [c]) ++ y) :=
          (topScores_append k y (topScores k x ++ [c])).symm
      _ = topScores k (topScores k (x ++ [c]) ++ y) := by
          rw [topScores_append_singleton k x c]
      _ = topScores k ((x ++ [c]) ++ y) := topScores_append k y (x ++ [c])
      _ = topScores k (x ++ (c :: y)) := by simp

theorem orderedInsert_ge_head (a : ℚ) :
    ∀ (l : List ℚ), (∀ x ∈ l, a ≥ x) → List.orderedInsert (· ≥ ·) a l = a :: l
  | [], _ => rfl
  | c :: l, h => by
    simp only [List.orderedInsert]
    rw [if_pos (h c (List.mem_cons_self c l))]

theorem entryScores_insertEntry {α : Type} (p : ℚ × α) :
    ∀ (st : List (ℚ × α)), sortedByScore st →
      entryScores (insertEntry st p) = List.orderedInsert (· ≥ ·) p.1 (entryScores st)
  | [], _ => rfl
  | q :: st, h => by
    have hst : sortedByScore st := List.Sorted.of_cons h
    have hqst : ∀ x ∈ st, q.1 ≥ x.1 := fun x hx => List.rel_of_sorted_cons h x hx
    simp only [insertEntry, entryScores, List.map_cons, List.orderedInsert]
    by_cases hgt : p.1 > q.1
    · rw [if_pos hgt, if_pos (le_of_lt hgt)]
      simp only [List.map_cons]
    · rw [if_neg hgt]
      by_cases hge : p.1 ≥ q.1
      · have heq : p.1 = q.1 := le_antisymm (not_lt.mp hgt) hge
        rw [if_pos hge]
        simp only [List.map_cons]
        have hIH := entryScores_insertEntry p st hst
        have hall : ∀ x ∈ entryScores st, p.1 ≥ x := by
          intro x hx
          rcases List.mem_map.mp hx with ⟨y, hy, rfl⟩
          rw [heq]
          exact hqst y hy
        calc q.1 :: List.map Prod.fst (insertEntry st p)
            = q.1 :: List.orderedInsert (· ≥ ·) p.1 (entryScores st) := by rw [← hIH]; rfl
          _ = q.1 :: p.1 :: entryScores st := by
              rw [orderedInsert_ge_head p.1 (entryScores st) hall]
          _ = p.1 :: q.1 :: entryScores st := by rw [heq]
          _ = p.1 :: q.1 :: List.map Prod.fst st := rfl
      · rw [if_neg hge]
        simp only [List.map_cons]
        exact congrArg (q.1 :: ·) (entryScores_insertEntry p st hst)

theorem sortedByScore_insertEntry {α : Type} (p : ℚ × α) :
    ∀ (st : List (ℚ × α)), sortedByScore st → sortedByScore (insertEntry st p)
  | [], _ => List.sorted_singleton p
  | q :: st, h => by
    have hst : sortedByScore st := List.Sorted.of_cons h
    simp only [insertEntry, List.orderedInsert]
    by_cases hgt : p.1 > q.1
    · rw [if_pos hgt]
      refine List.sorted_cons.mpr ⟨?_, h⟩
      intro c hc
      rcases List.mem_cons.mp hc with rfl | hc2
      · exact le_of_lt hgt
      · exact le_trans (List.rel_of_sorted_cons h c hc2) (le_of_lt hgt)
    · rw [if_neg hgt]
      refine List.sorted_cons.mpr ⟨?_, sortedByScore_insertEntry p st hst⟩
      intro c hc
      have hc2 : c ∈ p :: st := by
        refine ((List.perm_orderedInsert (fun p2 q2 : ℚ × α => p2.1 > q2.1) p st).mem_iff).mp ?_
        exact hc
      rcases List.mem_cons.mp hc2 with rfl | hc3
      · exact not_lt.mp hgt
      · exact List.rel_of_sorted_cons h c hc3

theorem sortedByScore_foldl_insert {α : Type} :
    ∀ (batch st : List (ℚ × α)), sortedByScore st → sortedByScore (batch.foldl insertEntry st)
  | [], _, h => h
  | p :: batch, st, h =>
    sortedByScore_foldl_insert batch (insertEntry st p) (sortedByScore_insertEntry p st h)

theorem entryScores_sorted {α : Type} {st : List (ℚ × α)} (h : sortedByScore st) :
    (entryScores st).Sorted (· ≥ ·) :=
  List.Pairwise.map Prod.fst (fun _ _ hab => hab) h

theorem entryScores_foldl_insert {α : Type} :
    ∀ (batch st : List (ℚ × α)), sortedByScore st →
      entryScores (batch.foldl insertEntry st)
        = (entryScores batch).foldl (fun l v => List.orderedInsert (· ≥ ·) v l) (entryScores st)
  | [], _, _ => rfl
  | p :: batch, st, h => by
    have h2 := entryScores_foldl_insert batch (insertEntry st p) (sortedByScore_insertEntry p st h)
    rw [List.foldl_cons, h2, entryScores_insertEntry p st h]
    rfl

theorem foldl_orderedInsert_sortDesc :
    ∀ (xs s : List ℚ), s.Sorted (· ≥ ·) →
      xs.foldl (fun l v => List.orderedInsert (· ≥ ·) v l) s = sortDesc (s ++ xs)
  | [], s, h => by simpa using (sortDesc_of_sorted h).symm
  | x :: xs, s, h => by
    rw [List.foldl_cons,
      foldl_orderedInsert_sortDesc xs (List.orderedInsert (· ≥ ·) x s)
        (List.Sorted.orderedInsert x s h)]
    refine sortDesc_congr ?_
    have h1 : (List.orderedInsert (· ≥ ·) x s ++ xs).Perm ((x :: s) ++ xs) :=
      (List.perm_orderedInsert (· ≥ ·) x s).append_right xs
    have h2 : ((x :: s) ++ xs).Perm (s ++ x :: xs) := List.perm_middle.symm
    exact h1.trans h2

theorem entryScores_take {α : Type} (k : ℕ) (l : List (ℚ × α)) :
    entryScores (l.take k) = (entryScores l).take k := List.map_take _ _ _

theorem entryScores_addAll {α : Type} (k : ℕ) (st batch : List (ℚ × α)) (h : sortedByScore st) :
    entryScores (addAll k st batch) = topScores k (entryScores st ++ entryScores batch) := by
  unfold addAll topScores
  rw [entryScores_take, entryScores_foldl_insert batch st h,
    foldl_orderedInsert_sortDesc (entryScores batch) (entryScores st) (entryScores_sorted h)]

theorem sortedByScore_addAll {α : Type} (k : ℕ) (st batch : List (ℚ × α))
    (h : sortedByScore st) : sortedByScore (addAll k st batch) :=
  (sortedByScore_foldl_insert batch st h).take

theorem feed_go {α : Type} (k : ℕ) :
    ∀ (bs : List (List (ℚ × α))) (st : List (ℚ × α)), sortedByScore st →
      entryScores st = topScores k (entryScores st) →
      entryScores (bs.foldl (addAll k) st)
        = topScores k (entryScores st ++ (bs.map entryScores).flatten)
  | [], _, _, hs => by simpa using hs
  | c :: bs, st, h, hs => by
    have hsorted : sortedByScore (addAll k st c) := sortedByScore_addAll k st c h
    have hidem : entryScores (addAll k st c) = topScores k (entryScores (addAll k st c)) := by
      rw [entryScores_addAll k st c h, topScores_idem]
    rw [List.foldl_cons, feed_go k bs (addAll k st c) hsorted hidem,
      entryScores_addAll k st c h, List.map_cons, List.flatten_cons,
      topScores_append k ((bs.map entryScores).flatten) (entryScores st ++ entryScores c),
      List.append_assoc]

theorem feedBatches_scores {α : Type} (k : ℕ) (bs : List (List (ℚ × α))) :
    entryScores (feedBatches k bs) = topScores k ((bs.map entryScores).flatten) := by
  have h := feed_go k bs [] List.sorted_nil (by simp [entryScores, topScores, sortDesc])
  simpa [feedBatches, entryScores] using h

theorem mem_insertEntry {α : Type} {x p : ℚ × α} {st : List (ℚ × α)}
    (h : x ∈ insertEntry st p) : x ∈ st ∨ x = p := by
  have h2 : x ∈ p :: st := by
    refine ((List.perm_orderedInsert (fun p2 q2 : ℚ × α => p2.1 > q2.1) p st).mem_iff).mp ?_
    exact h
  rcases List.mem_cons.mp h2 with h3 | h4
  · exact Or.inr h3
  · exact Or.inl h4

theorem mem_foldl_insert {α : Type} {x : ℚ × α} :
    ∀ (batch st : List (ℚ × α)), x ∈ batch.foldl insertEntry st → x ∈ st ∨ x ∈ batch
  | [], _, h => Or.inl h
  | p :: batch, st, h => by
    rcases mem_foldl_insert batch (insertEntry st p) h with h1 | h2
    · rcases mem_insertEntry h1 with h3 | h4
      · exact Or.inl h3
      · exact Or.inr (by rw [h4]; exact List.mem_cons_self p batch)
    · exact Or.inr (List.mem_cons_of_mem p h2)

theorem mem_addAll {α : Type} {x : ℚ × α} {k : ℕ} {st batch : List (ℚ × α)}
    (h : x ∈ addAll k st batch) : x ∈ st ∨ x ∈ batch :=
  mem_foldl_insert batch st (List.take_subset _ _ h)

theorem mem_feedBatches {α : Type} {x : ℚ × α} {k : ℕ} :
    ∀ (bs : List (List (ℚ × α))) (st : List (ℚ × α)),
      x ∈ bs.foldl (addAll k) st → x ∈ st ∨ ∃ c ∈ bs, x ∈ c
  | [], _, h => Or.inl h
  | c :: bs, st, h => by
    rcases mem_feedBatches bs (addAll k st c) h with h1 | ⟨d, hd, hx⟩
    · rcases mem_addAll h1 with h2 | h3
      · exact Or.inl h2
      · exact Or.inr ⟨c, List.mem_cons_self c bs, h3⟩
    · exact Or.inr ⟨d, List.mem_cons_of_mem c hd, hx⟩

/-! ## Claim theorems: C6, C10 -/

/-- C6 counterexample: with `k = 1` and two singleton batches carrying equal
score `5` but distinct payloads `0` and `1`, feeding the batches in the two
orders (which are permutations of each other) keeps different entries: the
first-seen payload wins the tie at the `k` boundary, so the final top-k SET
depends on the batch order even though the sorted score lists coincide. -/
theorem topk_tie_payload_set_counterexample :
    ([[((5 : ℚ), (0 : ℕ))], [(5, 1)]] : List (List (ℚ × ℕ))).Perm [[(5, 1)], [(5, 0)]] ∧
      ((5 : ℚ), (0 : ℕ)) ∈ feedBatches 1 [[((5 : ℚ), (0 : ℕ))], [(5, 1)]] ∧
      ((5 : ℚ), (0 : ℕ)) ∉ feedBatches 1 [[((5 : ℚ), (1 : ℕ))], [(5, 0)]] ∧
      entryScores (feedBatches 1 [[((5 : ℚ), (0 : ℕ))], [(5, 1)]])
        = entryScores (feedBatches 1 [[((5 : ℚ), (1 : ℕ))], [(5, 0)]]) := by
  refine ⟨List.Perm.swap _ _ _, ?_, ?_, ?_⟩ <;> decide

/-- C6 (amended): the bounded top-k accumulation is batch-order invariant at
the level of scores — for every capacity `k`, feeding all batches of a
training set in any order yields the same sorted score list for each query
row; the retained payload set, however, may differ when tied scores straddle
the `k` boundary (see the counterexample), so only the score multiset, not
the top-k set, is order-independent. -/
theorem topk_scores_batch_order_invariant {α : Type} (k : ℕ)
    (bs bs2 : List (List (ℚ × α))) (h : bs.Perm bs2) :
    entryScores (feedBatches k bs) = entryScores (feedBatches k bs2) := by
  rw [feedBatches_scores, feedBatches_scores]
  show (sortDesc ((bs.map entryScores).flatten)).take k
    = (sortDesc ((bs2.map entryScores).flatten)).take k
  rw [sortDesc_congr ((h.map entryScores).flatten)]

/-- C6 witness: two batches with distinct scores `7` and `3`, fed in both
orders with `k = 2`, report the same sorted score list. -/
theorem topk_scores_batch_order_invariant_witness :
    ([[((7 : ℚ), (0 : ℕ))], [(3, 1)]] : List (List (ℚ × ℕ))).Perm [[(3, 1)], [(7, 0)]] ∧
      entryScores (feedBatches 2 [[((7 : ℚ), (0 : ℕ))], [(3, 1)]])
        = entryScores (feedBatches 2 [[((3 : ℚ), (1 : ℕ))], [(7, 0)]]) :=
  ⟨List.Perm.swap _ _ _,
    topk_scores_batch_order_invariant 2 [[((7 : ℚ), (0 : ℕ))], [(3, 1)]]
      [[((3 : ℚ), (1 : ℕ))], [(7, 0)]] (List.Perm.swap _ _ _)⟩

/-- C10: in `top_k`, every payload that can appear in a returned row of
`training_samples` is one of the raw training *inputs* of some batch of the
training set — the pairs fed to the accumulator carry `batch[0]` only, so
labels are dropped; and the payload sequence zipped with each score row is
the batch's input list itself, identical for every query row (the score
matrix row length equals the batch size). -/
theorem topk_payloads_inputs_only {ι κ : Type} (k : ℕ)
    (scoreF : ℕ → List ι × List κ → List ℚ) (bs : List (List ι × List κ))
    (hlen : ∀ (r : ℕ) (c : List ι × List κ), c ∈ bs → (scoreF r c).length = c.1.length) :
    (∀ (r : ℕ) (x : ι), x ∈ (topKRow k scoreF r bs).map Prod.snd →
        ∃ c ∈ bs, x ∈ c.1) ∧
      (∀ (r r2 : ℕ) (c : List ι × List κ), c ∈ bs →
        ((scoreF r c).zip c.1).map Prod.snd = ((scoreF r2 c).zip c.1).map Prod.snd) := by
  constructor
  · intro r x hx
    rcases List.mem_map.mp hx with ⟨pr, hpr, hsnd⟩
    simp only [topKRow, feedBatches] at hpr
    rcases mem_feedBatches (bs.map (fun c => (scoreF r c).zip c.1)) [] hpr with h0 | ⟨d, hd, hxd⟩
    · simp at h0
    · rcases List.mem_map.mp hd with ⟨c, hc, rfl⟩
      refine ⟨c, hc, ?_⟩
      rw [← hsnd]
      exact (List.of_mem_zip hxd).2
  · intro r r2 c hc
    rw [List.map_snd_zip _ _ (le_of_eq (hlen r c hc).symm),
      List.map_snd_zip _ _ (le_of_eq (hlen r2 c hc).symm)]

/-- C10 witness: one training batch with input `10` and label `true`, one
query row with score row `[1]`: the payload found in the accumulator is the
raw input `10` of that batch. -/
theorem topk_payloads_inputs_only_witness :
    ∃ c ∈ ([([10], [true])] : List (List ℕ × List Bool)), (10 : ℕ) ∈ c.1 :=
  (topk_payloads_inputs_only 1 (fun _ _ => [(1 : ℚ)]) [([10], [true])]
      (fun r c hc => by rw [List.mem_singleton.mp hc]; rfl)).1 0 10 (by decide)
